import Mathlib

/-!
Shallow embedding of the sign-magnitude big-integer core in `src/bn.c` /
`src/bn.h` (limb width 32 bits, limbs least-significant first), together
with proofs checking the natural-language specification against it.

Machine integers are modelled as `Nat` (unsigned) and `Int` (signed)
with explicit reductions modulo `2 ^ 32` where the C code truncates.
A `bn` struct is a list of limbs plus a sign flag; the `size` field of
the struct, which the C code keeps equal to the length of the allocated
limb buffer at all times, is the length of the list.
-/

set_option maxHeartbeats 1000000

/-- Fuel-bounded bit length: `bitlenAux f n` is the number of binary digits
of `n`, computed with at most `f` halving steps (exact whenever `n < 2 ^ f`).
Used to model the hardware leading-zero count `__builtin_clz`. -/
def bitlenAux : Nat → Nat → Nat
  | 0, _ => 0
  | f + 1, n => if n = 0 then 0 else bitlenAux f (n / 2) + 1

/-- `__builtin_clz` on a nonzero 32-bit value: 32 minus the bit length. -/
def clz32 (x : Nat) : Nat := 32 - bitlenAux 32 x

/-- The loop of `bn_clz` in `src/bn.c`, over the limbs listed most
significant first: each zero limb contributes 32, and the first nonzero
limb contributes its native leading-zero count and stops the scan. -/
def clzRev : List Nat → Nat
  | [] => 0
  | x :: xs => if x = 0 then 32 + clzRev xs else clz32 x

/-- The `bn` struct of `src/bn.h`: limb array (least significant first)
and sign bit (`false` = non-negative). The `size` field is the length of
`number`, which `src/bn.c` maintains as an invariant of every operation. -/
structure BN where
  number : List Nat
  sign : Bool
deriving DecidableEq, Repr

/-- `size` field of the struct: number of limbs. -/
def BN.size (b : BN) : Nat := b.number.length

/-- `bn_clz` of `src/bn.c`: leading zero bits, scanning limbs from the
most significant index downward. -/
def bn_clz (b : BN) : Nat := clzRev b.number.reverse

/-- `bn_msb` of `src/bn.c`: `size * 32 - bn_clz`. -/
def bn_msb (b : BN) : Nat := b.size * 32 - bn_clz b

/-- `bn_msb` expressed on a bare limb list. -/
def listMsb (l : List Nat) : Nat := l.length * 32 - clzRev l.reverse

/-- Mathematical magnitude denoted by a limb list (radix `2 ^ 32`,
least significant limb first). -/
def limbsVal : List Nat → Nat
  | [] => 0
  | x :: xs => x + 2 ^ 32 * limbsVal xs

/-- `bn_swap` of `src/bn.c`: exchanges the two structs wholesale. -/
def bn_swap (a b : BN) : BN × BN := (b, a)

/-- `bn_free` of `src/bn.c` on a handle (`none` models a NULL pointer):
returns -1 on NULL, otherwise frees the limb buffer and the struct and
returns 0.  The first component is the live value remaining afterwards
(`none`: no live bn). -/
def bn_free (src : Option BN) : Option BN × Int :=
  match src with
  | none => (none, -1)
  | some _ => (none, 0)

/-- Effect of `bn_resize` of `src/bn.c` on the limb buffer for a nonzero
target size on a live struct: no-op at equal size, `krealloc` plus
zero-fill of the new high limbs on grow, truncation of high limbs on
shrink (allocation is assumed to succeed). -/
def bn_resize_limbs (l : List Nat) (size : Nat) : List Nat :=
  if size = l.length then l
  else if l.length < size then l ++ List.replicate (size - l.length) 0
  else l.take size

/-- `bn_resize` of `src/bn.c` at handle level, with its exact check
order: NULL gives -1; a size equal to the current size is a no-op
returning 0 (checked first); size 0 delegates to `bn_free`; otherwise
the buffer is reallocated (assumed to succeed) and 0 is returned. -/
def bn_resize (src : Option BN) (size : Nat) : Option BN × Int :=
  match src with
  | none => (none, -1)
  | some b =>
    if size = b.size then (some b, 0)
    else if size = 0 then bn_free (some b)
    else (some { b with number := bn_resize_limbs b.number size }, 0)

/-- The descending limb loop of `bn_cmp`, over both limb lists reversed
(most significant first): the first mismatching limb decides. -/
def cmpLoop : List Nat → List Nat → Int
  | x :: xs, y :: ys => if x ≠ y then (if x < y then 1 else -1) else cmpLoop xs ys
  | _, _ => 0

/-- `bn_cmp` of `src/bn.c`, exactly as written: on different sizes it
returns 1 when `a` has FEWER limbs and -1 when it has more; on equal
sizes the first mismatching limb from the top decides, the SMALLER limb
yielding 1.  (Note the polarity: `bn_add` interprets a positive result
as `|a| > |b|`.) -/
def bn_cmp (a b : BN) : Int :=
  if a.size ≠ b.size then (if a.size < b.size then 1 else -1)
  else cmpLoop a.number.reverse b.number.reverse

/-- The carry loop of `bn_do_add`: `d` iterations; at each index the two
operand limbs (zero when past an operand's size) are added into the
64-bit accumulator, the low 32 bits are stored and the rest carried. -/
def addLoop : Nat → List Nat → List Nat → Nat → List Nat
  | 0, _, _, _ => []
  | d + 1, a, b, carry =>
    let s := carry + a.headD 0 + b.headD 0
    s % 2 ^ 32 :: addLoop d a.tail b.tail (s / 2 ^ 32)

/-- The destination size computed by `bn_do_add`:
`d = MAX(bn_msb(a), bn_msb(b)) + 1; d = DIV_ROUNDUP(d, 32) + !d`. -/
def bn_do_add_size (a b : BN) : Nat :=
  let d := max (bn_msb a) (bn_msb b) + 1
  (d + 32 - 1) / 32 + (if d = 0 then 1 else 0)

/-- `bn_do_add` of `src/bn.c` (`|c| = |a| + |b|`), destination distinct
from the sources.  The resize of `c` before the loop determines the loop
bound `d = c->size`; every limb of `c` is then overwritten, so only `d`
survives of the resize.  After the loop, a zero top limb is dropped when
the size exceeds 1.  The sign field of `c` is not touched. -/
def bn_do_add (a b c : BN) : BN :=
  let d := bn_do_add_size a b
  let c0 := addLoop d a.number b.number 0
  let c1 := if c0.getLastD 0 = 0 ∧ 1 < c0.length
            then bn_resize_limbs c0 (c0.length - 1) else c0
  { number := c1, sign := c.sign }

/-- `bn_do_add(a, b, a)`: the call with `c` aliasing `a`.  The resize of
`c` then also resizes `a`, so `a->size` becomes `d` and the loop reads
the RESIZED buffer of `a`; at each index the two reads precede the
write, so index `i` still sees the resized (not yet overwritten) limb. -/
def bn_do_add_aliasA (a b : BN) : BN :=
  let d := bn_do_add_size a b
  let c0 := addLoop d (bn_resize_limbs a.number d) b.number 0
  let c1 := if c0.getLastD 0 = 0 ∧ 1 < c0.length
            then bn_resize_limbs c0 (c0.length - 1) else c0
  { number := c1, sign := a.sign }

/-- `bn_do_add(a, b, b)`: the call with `c` aliasing `b`. -/
def bn_do_add_aliasB (a b : BN) : BN :=
  let d := bn_do_add_size a b
  let c0 := addLoop d a.number (bn_resize_limbs b.number d) 0
  let c1 := if c0.getLastD 0 = 0 ∧ 1 < c0.length
            then bn_resize_limbs c0 (c0.length - 1) else c0
  { number := c1, sign := b.sign }

/-- The borrow loop of `bn_do_sub`: `d` iterations of
`carry = (long long)tmp1 - tmp2 - carry`, storing `carry + 2^32` with
borrow-out 1 when negative and `carry` with borrow-out 0 otherwise. -/
def subLoop : Nat → List Nat → List Nat → Int → List Nat
  | 0, _, _, _ => []
  | d + 1, a, b, borrow =>
    let diff : Int := (a.headD 0 : Int) - (b.headD 0 : Int) - borrow
    if diff < 0 then (diff + 2 ^ 32).toNat :: subLoop d a.tail b.tail 1
    else diff.toNat :: subLoop d a.tail b.tail 0

/-- `bn_do_sub` of `src/bn.c` (`|c| = |a| - |b|`, requiring `|a| >= |b|`
of its callers).  `c` is resized to `MAX(a->size, b->size)`, which is
the loop bound; every limb of `c` is overwritten by the borrow loop.
Afterwards the leading zero LIMBS (`bn_clz(c) / 32`) are trimmed, the
trim count being reduced by one when it would reach the full size.
The sign field of `c` is not touched. -/
def bn_do_sub (a b c : BN) : BN :=
  let d := max a.size b.size
  let c0 := subLoop d a.number b.number 0
  let t0 := clzRev c0.reverse / 32
  let t := if t0 = c0.length then t0 - 1 else t0
  { number := bn_resize_limbs c0 (c0.length - t), sign := c.sign }

/-- `bn_add` of `src/bn.c` (`c = a + b`, sign-aware).  Equal signs add
magnitudes and keep the sign.  Different signs first `bn_swap` the two
CALLER handles when `a` is negative (a documented side effect), then
dispatch on `bn_cmp`: positive result subtracts `b` from `a` with
non-negative sign, negative result subtracts `a` from `b` with negative
sign, zero result writes the canonical zero.  The returned triple is
the final contents of the handles `(a, b, c)`. -/
def bn_add (a b c : BN) : BN × BN × BN :=
  if a.sign = b.sign then
    let cr := bn_do_add a b c
    (a, b, { cr with sign := a.sign })
  else
    let p := if a.sign then bn_swap a b else (a, b)
    let a1 := p.1
    let b1 := p.2
    let cmp := bn_cmp a1 b1
    if 0 < cmp then
      let cr := bn_do_sub a1 b1 c
      (a1, b1, { cr with sign := false })
    else if cmp < 0 then
      let cr := bn_do_sub b1 a1 c
      (a1, b1, { cr with sign := true })
    else
      (a1, b1, { number := (bn_resize_limbs c.number 1).set 0 0, sign := false })

/-- `bn_is_zero` of `src/bn.h`: the macro `((n)->size == 0)`. -/
def bn_is_zero (b : BN) : Bool := b.size == 0

/-- All limbs are valid 32-bit words. -/
def Limbs32 (l : List Nat) : Prop := ∀ x ∈ l, x < 2 ^ 32

/-- The minimality invariant of the spec: `size == 1` or the most
significant limb is nonzero. -/
def minNorm (l : List Nat) : Prop := l.length = 1 ∨ l.getLastD 0 ≠ 0

/-- A well-formed, minimally normalized bn value. -/
def Normalized (b : BN) : Prop := Limbs32 b.number ∧ minNorm b.number

instance : DecidablePred Limbs32 := fun l => List.decidableBAll _ l

instance : DecidablePred minNorm := fun _ => instDecidableOr

instance (b : BN) : Decidable (Normalized b) := instDecidableAnd

/-! ### Bit-length and leading-zero-count lemmas -/

theorem bitlenAux_le_fuel (f x : Nat) : bitlenAux f x ≤ f := by
  induction f generalizing x with
  | zero => simp [bitlenAux]
  | succ f ih =>
    simp only [bitlenAux]
    split
    · exact Nat.zero_le _
    · exact Nat.succ_le_succ (ih _)

theorem bitlenAux_pos (f x : Nat) (hx : x ≠ 0) (hf : 1 ≤ f) : 1 ≤ bitlenAux f x := by
  cases f with
  | zero => omega
  | succ f => simp [bitlenAux, hx]

theorem lt_two_pow_bitlenAux (f : Nat) : ∀ x, x < 2 ^ f → x < 2 ^ bitlenAux f x := by
  induction f with
  | zero => intro x hx; interval_cases x; simp [bitlenAux]
  | succ f ih =>
    intro x hx
    by_cases h0 : x = 0
    · simp [bitlenAux, h0]
    · have hdiv : x / 2 < 2 ^ f := by
        have := Nat.pow_succ 2 f
        omega
      have h2 := ih (x / 2) hdiv
      simp only [bitlenAux, h0, if_false]
      have : 2 ^ (bitlenAux f (x / 2) + 1) = 2 * 2 ^ bitlenAux f (x / 2) := by ring
      omega

theorem two_pow_bitlenAux_le (f : Nat) : ∀ x, x ≠ 0 → 2 ^ (bitlenAux f x - 1) ≤ x := by
  induction f with
  | zero => intro x hx; simp [bitlenAux]; omega
  | succ f ih =>
    intro x hx
    simp only [bitlenAux, hx, if_false, Nat.add_sub_cancel]
    by_cases h0 : x / 2 = 0
    · have hz : bitlenAux f (x / 2) = 0 := by
        cases f <;> simp [bitlenAux, h0]
      rw [hz]
      simpa using Nat.one_le_iff_ne_zero.mpr hx
    · have h2 := ih (x / 2) h0
      by_cases hb : bitlenAux f (x / 2) = 0
      · rw [hb]
        simpa using Nat.one_le_iff_ne_zero.mpr hx
      · have hsplit : 2 ^ bitlenAux f (x / 2) = 2 * 2 ^ (bitlenAux f (x / 2) - 1) := by
          conv_lhs => rw [show bitlenAux f (x / 2) = (bitlenAux f (x / 2) - 1) + 1 by omega]
          ring
        omega

theorem clz32_le_31 (x : Nat) (hx : x ≠ 0) : clz32 x ≤ 31 := by
  have := bitlenAux_pos 32 x hx (by omega)
  unfold clz32
  omega

theorem clz32_le (x : Nat) : clz32 x ≤ 32 := by
  unfold clz32; omega

theorem clzRev_le (r : List Nat) : clzRev r ≤ 32 * r.length := by
  induction r with
  | nil => simp [clzRev]
  | cons x xs ih =>
    simp only [clzRev, List.length_cons]
    split
    · omega
    · have := clz32_le x
      omega

/-! ### Value lemmas -/

theorem limbsVal_headD_tail (l : List Nat) :
    limbsVal l = l.headD 0 + 2 ^ 32 * limbsVal l.tail := by
  cases l <;> simp [limbsVal]

theorem limbsVal_append_singleton (xs : List Nat) (x : Nat) :
    limbsVal (xs ++ [x]) = limbsVal xs + 2 ^ (32 * xs.length) * x := by
  induction xs with
  | nil => simp [limbsVal]
  | cons y ys ih =>
    have h1 : limbsVal (y :: ys ++ [x]) = y + 2 ^ 32 * limbsVal (ys ++ [x]) := rfl
    have h2 : limbsVal (y :: ys) = y + 2 ^ 32 * limbsVal ys := rfl
    rw [h1, ih, h2]
    have h3 : 2 ^ (32 * (y :: ys).length) = 2 ^ 32 * 2 ^ (32 * ys.length) := by
      rw [← pow_add, List.length_cons]; ring_nf
    rw [h3]; ring

theorem limbsVal_lt (l : List Nat) (hl : Limbs32 l) : limbsVal l < 2 ^ (32 * l.length) := by
  induction l with
  | nil => simp [limbsVal]
  | cons x xs ih =>
    have hx : x < 2 ^ 32 := hl x (List.mem_cons_self x xs)
    have hxs : limbsVal xs < 2 ^ (32 * xs.length) :=
      ih (fun y hy => hl y (List.mem_cons_of_mem x hy))
    simp only [limbsVal, List.length_cons]
    have : 2 ^ (32 * (xs.length + 1)) = 2 ^ 32 * 2 ^ (32 * xs.length) := by
      rw [← pow_add]; ring_nf
    rw [this]
    calc x + 2 ^ 32 * limbsVal xs < 2 ^ 32 + 2 ^ 32 * limbsVal xs := by omega
    _ ≤ 2 ^ 32 * (limbsVal xs + 1) := by ring_nf; omega
    _ ≤ 2 ^ 32 * 2 ^ (32 * xs.length) := by
        exact Nat.mul_le_mul_left _ (by omega)

theorem limbsVal_eq_zero_iff (l : List Nat) : limbsVal l = 0 ↔ ∀ x ∈ l, x = 0 := by
  induction l with
  | nil => simp [limbsVal]
  | cons x xs ih =>
    simp only [limbsVal, List.mem_cons]
    constructor
    · intro h
      have hx : x = 0 := by omega
      have hxs : limbsVal xs = 0 := by omega
      intro y hy
      rcases hy with rfl | hy
      · exact hx
      · exact ih.mp hxs y hy
    · intro h
      have hx : x = 0 := h x (Or.inl rfl)
      have : limbsVal xs = 0 := ih.mpr (fun y hy => h y (Or.inr hy))
      omega

/-! ### Most-significant-bit lemmas -/

theorem getLastD_append_singleton (xs : List Nat) (x d : Nat) :
    (xs ++ [x]).getLastD d = x := by simp

theorem listMsb_nil : listMsb [] = 0 := rfl

theorem listMsb_append_zero (xs : List Nat) : listMsb (xs ++ [0]) = listMsb xs := by
  have h := clzRev_le xs.reverse
  have hrev : (xs ++ [0]).reverse = 0 :: xs.reverse := by simp
  have hclz : clzRev (0 :: xs.reverse) = 32 + clzRev xs.reverse := by simp [clzRev]
  simp only [listMsb, hrev, hclz, List.length_append, List.length_singleton]
  simp only [List.length_reverse] at h
  omega

theorem listMsb_append_nonzero (xs : List Nat) (x : Nat) (hx : x ≠ 0) :
    listMsb (xs ++ [x]) = 32 * xs.length + bitlenAux 32 x := by
  have h := bitlenAux_le_fuel 32 x
  simp only [listMsb, List.reverse_append, List.reverse_singleton, List.length_append,
    List.singleton_append, clzRev, List.length_singleton, if_neg hx, clz32]
  omega

theorem limbsVal_lt_two_pow_listMsb (l : List Nat) (hl : Limbs32 l) :
    limbsVal l < 2 ^ listMsb l := by
  induction l using List.reverseRecOn with
  | nil => simp [limbsVal, listMsb_nil]
  | append_singleton xs x ih =>
    have hxs : Limbs32 xs := fun y hy => hl y (List.mem_append_left _ hy)
    have hx : x < 2 ^ 32 := hl x (List.mem_append_right _ (List.mem_singleton_self x))
    by_cases h0 : x = 0
    · subst h0
      rw [listMsb_append_zero, limbsVal_append_singleton]
      simpa using ih hxs
    · rw [listMsb_append_nonzero xs x h0, limbsVal_append_singleton]
      have hv : limbsVal xs < 2 ^ (32 * xs.length) := limbsVal_lt xs hxs
      have hb : x < 2 ^ bitlenAux 32 x := lt_two_pow_bitlenAux 32 x hx
      have hsplit : 2 ^ (32 * xs.length + bitlenAux 32 x)
          = 2 ^ (32 * xs.length) * 2 ^ bitlenAux 32 x := pow_add 2 _ _
      rw [hsplit]
      calc limbsVal xs + 2 ^ (32 * xs.length) * x
          < 2 ^ (32 * xs.length) + 2 ^ (32 * xs.length) * x := by omega
        _ = 2 ^ (32 * xs.length) * (x + 1) := by ring
        _ ≤ 2 ^ (32 * xs.length) * 2 ^ bitlenAux 32 x :=
            Nat.mul_le_mul_left _ (by omega)

theorem minNorm_ne_nil (l : List Nat) (h : minNorm l) : l ≠ [] := by
  rcases h with h | h
  · intro hn; subst hn; simp at h
  · intro hn; subst hn; simp [List.getLastD] at h

theorem minNorm_val_zero (l : List Nat) (hn : minNorm l) (hv : limbsVal l = 0) :
    l = [0] := by
  have hall := (limbsVal_eq_zero_iff l).mp hv
  have hne := minNorm_ne_nil l hn
  rcases hn with h1 | h2
  · match l, h1 with
    | [x], _ => rw [hall x (List.mem_singleton_self x)]
  · exfalso
    obtain ⟨xs, x, rfl⟩ : ∃ xs x, l = xs ++ [x] := by
      induction l using List.reverseRecOn with
      | nil => exact absurd rfl hne
      | append_singleton xs x _ => exact ⟨xs, x, rfl⟩
    rw [getLastD_append_singleton] at h2
    exact h2 (hall x (List.mem_append_right _ (List.mem_singleton_self x)))

theorem listMsb_singleton_zero : listMsb [0] = 0 := by
  have h : ([] : List Nat) ++ [0] = [0] := rfl
  rw [← h, listMsb_append_zero, listMsb_nil]

theorem two_pow_le_limbsVal (l : List Nat) (hl : Limbs32 l) (hn : minNorm l)
    (hm : 1 ≤ listMsb l) : 2 ^ (listMsb l - 1) ≤ limbsVal l := by
  have hne := minNorm_ne_nil l hn
  obtain ⟨xs, x, rfl⟩ : ∃ xs x, l = xs ++ [x] := by
    induction l using List.reverseRecOn with
    | nil => exact absurd rfl hne
    | append_singleton xs x _ => exact ⟨xs, x, rfl⟩
  by_cases h0 : x = 0
  · subst h0
    have : xs ++ [0] = [0] := by
      rcases hn with h1 | h2
      · have : xs.length = 0 := by simpa using h1
        rw [List.length_eq_zero] at this
        rw [this]; rfl
      · rw [getLastD_append_singleton] at h2; exact absurd rfl h2
    rw [this] at hm ⊢
    rw [listMsb_singleton_zero] at hm
    omega
  · rw [listMsb_append_nonzero xs x h0, limbsVal_append_singleton]
    have hb : 2 ^ (bitlenAux 32 x - 1) ≤ x := two_pow_bitlenAux_le 32 x h0
    have hbp : 1 ≤ bitlenAux 32 x := bitlenAux_pos 32 x h0 (by omega)
    have hsplit : 2 ^ (32 * xs.length + bitlenAux 32 x - 1)
        = 2 ^ (32 * xs.length) * 2 ^ (bitlenAux 32 x - 1) := by
      rw [← pow_add]
      congr 1
      omega
    rw [hsplit]
    have := Nat.mul_le_mul_left (2 ^ (32 * xs.length)) hb
    omega

theorem listMsb_pos (l : List Nat) (hl : Limbs32 l) (hv : 0 < limbsVal l) :
    1 ≤ listMsb l := by
  by_contra h
  have hm : listMsb l = 0 := by omega
  have := limbsVal_lt_two_pow_listMsb l hl
  rw [hm] at this
  simp at this
  omega

theorem length_le_msb_bound (l : List Nat) (hn : minNorm l) :
    l.length ≤ (listMsb l + 32) / 32 := by
  have hne := minNorm_ne_nil l hn
  obtain ⟨xs, x, rfl⟩ : ∃ xs x, l = xs ++ [x] := by
    induction l using List.reverseRecOn with
    | nil => exact absurd rfl hne
    | append_singleton xs x _ => exact ⟨xs, x, rfl⟩
  by_cases h0 : x = 0
  · subst h0
    have hxs : xs = [] := by
      rcases hn with h1 | h2
      · have : xs.length = 0 := by simpa using h1
        rwa [List.length_eq_zero] at this
      · rw [getLastD_append_singleton] at h2; exact absurd rfl h2
    subst hxs
    simp [listMsb_singleton_zero]
  · rw [listMsb_append_nonzero xs x h0]
    simp only [List.length_append, List.length_singleton]
    omega

/-! ### Carry-loop lemmas -/

theorem addLoop_length (d : Nat) : ∀ a b carry, (addLoop d a b carry).length = d := by
  induction d with
  | zero => intro a b carry; rfl
  | succ d ih => intro a b carry; simp [addLoop, ih]

theorem addLoop_limbs32 (d : Nat) : ∀ a b carry, Limbs32 (addLoop d a b carry) := by
  induction d with
  | zero => intro a b carry x hx; simp [addLoop] at hx
  | succ d ih =>
    intro a b carry x hx
    simp only [addLoop, List.mem_cons] at hx
    rcases hx with rfl | hx
    · exact Nat.mod_lt _ (by norm_num)
    · exact ih _ _ _ x hx

theorem addLoop_val (d : Nat) : ∀ a b carry, a.length ≤ d → b.length ≤ d →
    carry + limbsVal a + limbsVal b < 2 ^ (32 * d) →
    limbsVal (addLoop d a b carry) = carry + limbsVal a + limbsVal b := by
  induction d with
  | zero =>
    intro a b carry _ _ hlt
    simp only [Nat.mul_zero, pow_zero, Nat.lt_one_iff] at hlt
    simp [addLoop, limbsVal, hlt]
  | succ d ih =>
    intro a b carry ha hb hlt
    have hA := limbsVal_headD_tail a
    have hB := limbsVal_headD_tail b
    have hta : a.tail.length ≤ d := by rw [List.length_tail]; omega
    have htb : b.tail.length ≤ d := by rw [List.length_tail]; omega
    set s := carry + a.headD 0 + b.headD 0 with hs
    have hpow : 2 ^ (32 * (d + 1)) = 4294967296 * 2 ^ (32 * d) := by
      rw [show 32 * (d + 1) = 32 + 32 * d by ring, pow_add]
      norm_num
    have hW : (2 : Nat) ^ 32 = 4294967296 := by norm_num
    have hdm := Nat.div_add_mod s 4294967296
    have hrec : limbsVal (addLoop d a.tail b.tail (s / 2 ^ 32))
        = s / 2 ^ 32 + limbsVal a.tail + limbsVal b.tail := by
      apply ih _ _ _ hta htb
      rw [hW]
      omega
    show (s % 2 ^ 32) + 2 ^ 32 * limbsVal (addLoop d a.tail b.tail (s / 2 ^ 32))
        = carry + limbsVal a + limbsVal b
    rw [hrec, hW]
    omega

theorem addLoop_drop_zeros_left (d : Nat) : ∀ l b c k,
    addLoop d (l ++ List.replicate k 0) b c = addLoop d l b c := by
  induction d with
  | zero => intro l b c k; rfl
  | succ d ih =>
    intro l b c k
    cases l with
    | nil =>
      cases k with
      | zero => rfl
      | succ k =>
        show addLoop (d + 1) (0 :: List.replicate k 0) b c = addLoop (d + 1) [] b c
        simp only [addLoop, List.headD, List.tail]
        rw [show (List.replicate k 0 : List Nat) = [] ++ List.replicate k 0 by simp, ih]
    | cons x xs =>
      show addLoop (d + 1) (x :: (xs ++ List.replicate k 0)) b c = _
      simp only [addLoop, List.headD, List.tail]
      rw [ih]

theorem addLoop_drop_zeros_right (d : Nat) : ∀ a l c k,
    addLoop d a (l ++ List.replicate k 0) c = addLoop d a l c := by
  induction d with
  | zero => intro a l c k; rfl
  | succ d ih =>
    intro a l c k
    cases l with
    | nil =>
      cases k with
      | zero => rfl
      | succ k =>
        show addLoop (d + 1) a (0 :: List.replicate k 0) c = addLoop (d + 1) a [] c
        simp only [addLoop, List.headD, List.tail]
        rw [show (List.replicate k 0 : List Nat) = [] ++ List.replicate k 0 by simp, ih]
    | cons x xs =>
      show addLoop (d + 1) a (x :: (xs ++ List.replicate k 0)) c = _
      simp only [addLoop, List.headD, List.tail]
      rw [ih]

/-! ### Borrow-loop lemmas -/

theorem subLoop_length (d : Nat) : ∀ a b borrow, (subLoop d a b borrow).length = d := by
  induction d with
  | zero => intro a b borrow; rfl
  | succ d ih =>
    intro a b borrow
    simp only [subLoop]
    split <;> simp [ih]

theorem subLoop_limbs32 (d : Nat) : ∀ a b (bor : Nat), bor ≤ 1 →
    Limbs32 a → Limbs32 b → Limbs32 (subLoop d a b (bor : Int)) := by
  induction d with
  | zero => intro a b bor _ _ _ x hx; simp [subLoop] at hx
  | succ d ih =>
    intro a b bor hbor ha hb x hx
    have hta : Limbs32 a.tail := fun y hy => ha y (List.mem_of_mem_tail hy)
    have htb : Limbs32 b.tail := fun y hy => hb y (List.mem_of_mem_tail hy)
    have ha0 : a.headD 0 < 2 ^ 32 := by
      cases a with
      | nil => norm_num
      | cons z zs => exact ha z (List.mem_cons_self z zs)
    have hb0 : b.headD 0 < 2 ^ 32 := by
      cases b with
      | nil => norm_num
      | cons z zs => exact hb z (List.mem_cons_self z zs)
    simp only [subLoop] at hx
    split at hx <;> rename_i hdiff <;> simp only [List.mem_cons] at hx
    · rcases hx with rfl | hx
      · omega
      · exact ih a.tail b.tail 1 (by omega) hta htb x (by exact_mod_cast hx)
    · rcases hx with rfl | hx
      · omega
      · exact ih a.tail b.tail 0 (by omega) hta htb x (by exact_mod_cast hx)

theorem subLoop_val (d : Nat) : ∀ a b (bor : Nat), bor ≤ 1 →
    Limbs32 a → Limbs32 b → a.length ≤ d → b.length ≤ d →
    limbsVal b + bor ≤ limbsVal a →
    limbsVal (subLoop d a b (bor : Int)) = limbsVal a - limbsVal b - bor := by
  induction d with
  | zero =>
    intro a b bor hbor ha hb hla hlb hle
    have ha0 : a = [] := List.length_eq_zero.mp (by omega)
    have hb0 : b = [] := List.length_eq_zero.mp (by omega)
    subst ha0; subst hb0
    simp [limbsVal, subLoop] at hle ⊢
  | succ d ih =>
    intro a b bor hbor ha hb hla hlb hle
    have hta : Limbs32 a.tail := fun y hy => ha y (List.mem_of_mem_tail hy)
    have htb : Limbs32 b.tail := fun y hy => hb y (List.mem_of_mem_tail hy)
    have hla2 : a.tail.length ≤ d := by rw [List.length_tail]; omega
    have hlb2 : b.tail.length ≤ d := by rw [List.length_tail]; omega
    have ha0 : a.headD 0 < 2 ^ 32 := by
      cases a with
      | nil => norm_num
      | cons z zs => exact ha z (List.mem_cons_self z zs)
    have hb0 : b.headD 0 < 2 ^ 32 := by
      cases b with
      | nil => norm_num
      | cons z zs => exact hb z (List.mem_cons_self z zs)
    have hA := limbsVal_headD_tail a
    have hB := limbsVal_headD_tail b
    have hW : (2 : Nat) ^ 32 = 4294967296 := by norm_num
    rw [hW] at hA hB ha0 hb0
    simp only [subLoop]
    split <;> rename_i hdiff
    · -- borrow taken: a.headD 0 < b.headD 0 + bor
      have hlt : a.headD 0 < b.headD 0 + bor := by omega
      have htail : limbsVal b.tail + 1 ≤ limbsVal a.tail := by
        by_contra hc
        push_neg at hc
        omega
      have hrec := ih a.tail b.tail 1 (by omega) hta htb hla2 hlb2 htail
      simp only [Nat.cast_one] at hrec
      have hcast : ((a.headD 0 : Int) - (b.headD 0 : Int) - (bor : Int) + 2 ^ 32).toNat
          = a.headD 0 + 4294967296 - b.headD 0 - bor := by omega
      show (((a.headD 0 : Int) - (b.headD 0 : Int) - (bor : Int) + 2 ^ 32).toNat)
          + 2 ^ 32 * limbsVal (subLoop d a.tail b.tail 1)
          = limbsVal a - limbsVal b - bor
      rw [hcast, hrec, hW]
      omega
    · -- no borrow: b.headD 0 + bor ≤ a.headD 0
      have hge : b.headD 0 + bor ≤ a.headD 0 := by omega
      have htail : limbsVal b.tail ≤ limbsVal a.tail := by
        by_contra hc
        push_neg at hc
        omega
      have hrec := ih a.tail b.tail 0 (by omega) hta htb hla2 hlb2 (by omega)
      simp only [Nat.cast_zero] at hrec
      have hcast : ((a.headD 0 : Int) - (b.headD 0 : Int) - (bor : Int)).toNat
          = a.headD 0 - b.headD 0 - bor := by omega
      show (((a.headD 0 : Int) - (b.headD 0 : Int) - (bor : Int)).toNat)
          + 2 ^ 32 * limbsVal (subLoop d a.tail b.tail 0)
          = limbsVal a - limbsVal b - bor
      rw [hcast, hrec, hW]
      omega

/-! ### Resize and comparison-loop lemmas -/

theorem bn_resize_limbs_length (l : List Nat) (n : Nat) :
    (bn_resize_limbs l n).length = n := by
  unfold bn_resize_limbs
  split
  · omega
  · split
    · simp; omega
    · simp; omega

theorem bn_resize_limbs_grow (l : List Nat) (n : Nat) (h : l.length ≤ n) :
    bn_resize_limbs l n = l ++ List.replicate (n - l.length) 0 := by
  unfold bn_resize_limbs
  split
  · simp [show n - l.length = 0 by omega]
  · rw [if_pos (by omega)]

theorem bn_resize_limbs_le (l : List Nat) (n : Nat) (h : n ≤ l.length) :
    bn_resize_limbs l n = l.take n := by
  unfold bn_resize_limbs
  split
  · rename_i heq; rw [heq, List.take_length]
  · rw [if_neg (by omega)]

theorem cmpLoop_self (l : List Nat) : cmpLoop l l = 0 := by
  induction l with
  | nil => rfl
  | cons x xs ih => simpa [cmpLoop] using ih

/-! ### Trim lemmas -/

theorem limbsVal_dropLast (l : List Nat) (h : l ≠ []) :
    limbsVal l = limbsVal l.dropLast + 2 ^ (32 * (l.length - 1)) * l.getLastD 0 := by
  conv_lhs => rw [← List.dropLast_append_getLast h]
  rw [limbsVal_append_singleton]
  have h1 : l.dropLast.length = l.length - 1 := by
    rw [List.dropLast_eq_take, List.length_take]
    omega
  have h2 : l.getLastD 0 = l.getLast h := by
    conv_lhs => rw [← List.dropLast_append_getLast h]
    rw [getLastD_append_singleton]
  rw [h1, h2]

theorem getLastD_ne_zero_of_val_ge (l : List Nat) (hl : Limbs32 l) (hne : l ≠ [])
    (hval : 2 ^ (32 * (l.length - 1)) ≤ limbsVal l) : l.getLastD 0 ≠ 0 := by
  intro h0
  have hd := limbsVal_dropLast l hne
  rw [h0, Nat.mul_zero, Nat.add_zero] at hd
  have hlt : limbsVal l.dropLast < 2 ^ (32 * l.dropLast.length) :=
    limbsVal_lt _ (fun y hy => hl y (List.dropLast_subset l hy))
  have hlen : l.dropLast.length = l.length - 1 := by
    rw [List.dropLast_eq_take, List.length_take]
    omega
  rw [hlen] at hlt
  omega

/-- Behaviour of the trim step of `bn_do_sub`: the count
`bn_clz(c) / 32` never exceeds the limb count; it equals the limb count
exactly when the value is zero; and otherwise taking the remaining
prefix preserves the value and is minimally normalized. -/
theorem subTrim_spec : ∀ l : List Nat, Limbs32 l → l ≠ [] →
    (clzRev l.reverse / 32 ≤ l.length) ∧
    (clzRev l.reverse / 32 = l.length → limbsVal l = 0) ∧
    (clzRev l.reverse / 32 < l.length →
      minNorm (l.take (l.length - clzRev l.reverse / 32)) ∧
      limbsVal (l.take (l.length - clzRev l.reverse / 32)) = limbsVal l) := by
  intro l
  induction l using List.reverseRecOn with
  | nil => intro _ hne; exact absurd rfl hne
  | append_singleton xs x ih =>
    intro hl _
    have hrev : (xs ++ [x]).reverse = x :: xs.reverse := by simp
    have hlen : (xs ++ [x]).length = xs.length + 1 := by simp
    by_cases h0 : x = 0
    · subst h0
      have hclz : clzRev ((xs ++ [0]).reverse) = 32 + clzRev xs.reverse := by
        rw [hrev]; simp [clzRev]
      have hdiv : clzRev ((xs ++ [0]).reverse) / 32 = 1 + clzRev xs.reverse / 32 := by
        rw [hclz]; omega
      have hval : limbsVal (xs ++ [0]) = limbsVal xs := by
        rw [limbsVal_append_singleton]; omega
      rcases List.eq_nil_or_concat xs with hxs | ⟨ys, y, hys⟩
      · subst hxs
        refine ⟨by simp [hdiv, clzRev], fun _ => by simp [limbsVal], fun hlt => ?_⟩
        rw [hdiv] at hlt
        simp [clzRev] at hlt
      · have hxs : xs ≠ [] := by rw [hys]; simp
        have hlx : Limbs32 xs := fun y hy => hl y (List.mem_append_left _ hy)
        obtain ⟨iht, ihz, ihlt⟩ := ih hlx hxs
        refine ⟨?_, ?_, ?_⟩
        · rw [hdiv, hlen]; omega
        · intro he
          rw [hdiv, hlen] at he
          rw [hval]
          exact ihz (by omega)
        · intro hlt
          rw [hdiv, hlen] at hlt
          have hlt2 : clzRev xs.reverse / 32 < xs.length := by omega
          obtain ⟨ihm, ihv⟩ := ihlt hlt2
          have htake : (xs ++ [0]).take ((xs ++ [0]).length - clzRev ((xs ++ [0]).reverse) / 32)
              = xs.take (xs.length - clzRev xs.reverse / 32) := by
            rw [hdiv, hlen, show xs.length + 1 - (1 + clzRev xs.reverse / 32)
                = xs.length - clzRev xs.reverse / 32 by omega]
            exact List.take_append_of_le_length (by omega)
          rw [htake, hval]
          exact ⟨ihm, ihv⟩
    · have hclz : clzRev ((xs ++ [x]).reverse) = clz32 x := by
        rw [hrev]; simp [clzRev, h0]
      have hdiv : clzRev ((xs ++ [x]).reverse) / 32 = 0 := by
        rw [hclz]
        exact Nat.div_eq_of_lt (by have := clz32_le_31 x h0; omega)
      refine ⟨by rw [hdiv]; omega, ?_, ?_⟩
      · intro he
        rw [hdiv, hlen] at he
        omega
      · intro _
        rw [hdiv, Nat.sub_zero, List.take_length]
        refine ⟨Or.inr ?_, rfl⟩
        rw [getLastD_append_singleton]
        exact h0

/-! ### Specification of the magnitude subtractor -/

theorem subLoop_limbs32_z (d : Nat) (a b : List Nat) (ha : Limbs32 a) (hb : Limbs32 b) :
    Limbs32 (subLoop d a b 0) := by
  have h := subLoop_limbs32 d a b 0 (by omega) ha hb
  simpa using h

theorem subLoop_val_z (d : Nat) (a b : List Nat) (ha : Limbs32 a) (hb : Limbs32 b)
    (hla : a.length ≤ d) (hlb : b.length ≤ d) (hle : limbsVal b ≤ limbsVal a) :
    limbsVal (subLoop d a b 0) = limbsVal a - limbsVal b := by
  have h := subLoop_val d a b 0 (by omega) ha hb hla hlb (by omega)
  simpa using h

theorem take_one_of_ne_nil (l : List Nat) (h : l ≠ []) : l.take 1 = [l.headD 0] := by
  cases l with
  | nil => exact absurd rfl h
  | cons x xs => rfl


/-- Combined behaviour of the trim step at the end of `bn_do_sub`,
stated over the limb list produced by the borrow loop: the result keeps
the value, is minimally normalized, and stays within 32-bit limbs. -/
theorem trimStep (l : List Nat) (hl : Limbs32 l) (hne : l ≠ []) :
    Limbs32 (bn_resize_limbs l (l.length - (if clzRev l.reverse / 32 = l.length
      then clzRev l.reverse / 32 - 1 else clzRev l.reverse / 32))) ∧
    minNorm (bn_resize_limbs l (l.length - (if clzRev l.reverse / 32 = l.length
      then clzRev l.reverse / 32 - 1 else clzRev l.reverse / 32))) ∧
    limbsVal (bn_resize_limbs l (l.length - (if clzRev l.reverse / 32 = l.length
      then clzRev l.reverse / 32 - 1 else clzRev l.reverse / 32))) = limbsVal l := by
  have hlpos : 1 ≤ l.length := List.length_pos.mpr hne
  obtain ⟨htle, htz, htlt⟩ := subTrim_spec l hl hne
  by_cases ht : clzRev l.reverse / 32 = l.length
  · have hv0 : limbsVal l = 0 := htz ht
    have hall := (limbsVal_eq_zero_iff l).mp hv0
    have h1 : l.length - (clzRev l.reverse / 32 - 1) = 1 := by omega
    rw [if_pos ht, h1, bn_resize_limbs_le l 1 (by omega), take_one_of_ne_nil l hne]
    have hhd : l.headD 0 = 0 := by
      rcases List.exists_cons_of_ne_nil hne with ⟨y, ys, hy⟩
      rw [hy]
      exact hall y (by rw [hy]; exact List.mem_cons_self y ys)
    rw [hhd, hv0]
    exact ⟨by intro y hy; simp at hy; omega, Or.inl rfl, by simp [limbsVal]⟩
  · have hlt : clzRev l.reverse / 32 < l.length := by omega
    obtain ⟨hm, hv⟩ := htlt hlt
    rw [if_neg ht, bn_resize_limbs_le l _ (by omega)]
    exact ⟨fun y hy => hl y (List.take_subset _ _ hy), hm, hv⟩

theorem bn_do_sub_spec (a b c : BN) (ha : Limbs32 a.number) (hb : Limbs32 b.number)
    (hpos : 1 ≤ max a.size b.size) :
    Limbs32 (bn_do_sub a b c).number ∧ minNorm (bn_do_sub a b c).number ∧
    (bn_do_sub a b c).sign = c.sign ∧
    (limbsVal b.number ≤ limbsVal a.number →
      limbsVal (bn_do_sub a b c).number = limbsVal a.number - limbsVal b.number) := by
  have hc0b : Limbs32 (subLoop (max a.size b.size) a.number b.number 0) :=
    subLoop_limbs32_z _ _ _ ha hb
  have hc0len : (subLoop (max a.size b.size) a.number b.number 0).length
      = max a.size b.size := subLoop_length _ _ _ _
  have hc0ne : subLoop (max a.size b.size) a.number b.number 0 ≠ [] := by
    intro h
    rw [h] at hc0len
    simp at hc0len
    omega
  obtain ⟨h1, h2, h3⟩ := trimStep _ hc0b hc0ne
  refine ⟨h1, h2, rfl, fun hle => ?_⟩
  have hv := subLoop_val_z (max a.size b.size) a.number b.number ha hb
    (le_max_left _ _) (le_max_right _ _) hle
  show limbsVal (bn_resize_limbs _ _) = _
  rw [h3, hv]

theorem bn_do_sub_ne_nil (a b c : BN) (hpos : 1 ≤ max a.size b.size) :
    (bn_do_sub a b c).number ≠ [] := by
  have hc0len : (subLoop (max a.size b.size) a.number b.number 0).length
      = max a.size b.size := subLoop_length _ _ _ _
  have hcl := clzRev_le (subLoop (max a.size b.size) a.number b.number 0).reverse
  rw [List.length_reverse, hc0len] at hcl
  have hlen : (bn_do_sub a b c).number.length
      = (subLoop (max a.size b.size) a.number b.number 0).length -
        (if clzRev (subLoop (max a.size b.size) a.number b.number 0).reverse / 32
            = (subLoop (max a.size b.size) a.number b.number 0).length
         then clzRev (subLoop (max a.size b.size) a.number b.number 0).reverse / 32 - 1
         else clzRev (subLoop (max a.size b.size) a.number b.number 0).reverse / 32) :=
    bn_resize_limbs_length _ _
  intro hnil
  rw [hnil] at hlen
  simp only [List.length_nil] at hlen
  rw [hc0len] at hlen
  split at hlen <;> omega

/-! ### Specification of the magnitude adder -/

theorem bn_msb_eq (b : BN) : bn_msb b = listMsb b.number := rfl

theorem bn_do_add_size_eq (a b : BN) :
    bn_do_add_size a b = (max (listMsb a.number) (listMsb b.number) + 32) / 32 := by
  show (max (bn_msb a) (bn_msb b) + 1 + 32 - 1) / 32
      + (if max (bn_msb a) (bn_msb b) + 1 = 0 then 1 else 0) = _
  rw [if_neg (by omega), bn_msb_eq, bn_msb_eq]
  omega

theorem bn_do_add_size_pos (a b : BN) : 1 ≤ bn_do_add_size a b := by
  rw [bn_do_add_size_eq]
  omega

theorem length_le_add_size_left (a b : BN) (hna : minNorm a.number) :
    a.number.length ≤ bn_do_add_size a b := by
  rw [bn_do_add_size_eq]
  have h := length_le_msb_bound a.number hna
  have h2 : (listMsb a.number + 32) / 32
      ≤ (max (listMsb a.number) (listMsb b.number) + 32) / 32 :=
    Nat.div_le_div_right (by omega)
  omega

theorem length_le_add_size_right (a b : BN) (hnb : minNorm b.number) :
    b.number.length ≤ bn_do_add_size a b := by
  rw [bn_do_add_size_eq]
  have h := length_le_msb_bound b.number hnb
  have h2 : (listMsb b.number + 32) / 32
      ≤ (max (listMsb a.number) (listMsb b.number) + 32) / 32 :=
    Nat.div_le_div_right (by omega)
  omega

/-- Behaviour of the single-limb trim at the end of `bn_do_add`: given
that a zero top limb can only appear when the remaining value still
reaches the second-highest limb (the `hbig` premise, discharged by the
sizing argument in `bn_do_add_spec`), the trimmed result keeps the
value and is minimally normalized. -/
theorem addTrim_spec (l : List Nat) (hl : Limbs32 l) (hne : l ≠ [])
    (hbig : l.getLastD 0 = 0 → 1 < l.length →
      l.length = 2 ∨ 2 ^ (32 * (l.length - 2)) ≤ limbsVal l) :
    minNorm (if l.getLastD 0 = 0 ∧ 1 < l.length
      then bn_resize_limbs l (l.length - 1) else l) ∧
    limbsVal (if l.getLastD 0 = 0 ∧ 1 < l.length
      then bn_resize_limbs l (l.length - 1) else l) = limbsVal l ∧
    Limbs32 (if l.getLastD 0 = 0 ∧ 1 < l.length
      then bn_resize_limbs l (l.length - 1) else l) := by
  have hlpos : 1 ≤ l.length := List.length_pos.mpr hne
  by_cases hc : l.getLastD 0 = 0 ∧ 1 < l.length
  · obtain ⟨hlast, hlen⟩ := hc
    rw [if_pos ⟨hlast, hlen⟩, bn_resize_limbs_le l _ (by omega)]
    have hdrop : l.take (l.length - 1) = l.dropLast := (List.dropLast_eq_take l).symm
    have hveq : limbsVal l.dropLast = limbsVal l := by
      have h := limbsVal_dropLast l hne
      rw [hlast] at h
      omega
    have hsub : Limbs32 l.dropLast := fun y hy => hl y (List.dropLast_subset l hy)
    have hlendrop : l.dropLast.length = l.length - 1 := by
      rw [List.dropLast_eq_take, List.length_take]
      omega
    rw [hdrop]
    refine ⟨?_, hveq, hsub⟩
    rcases hbig hlast hlen with h2 | h2
    · left
      omega
    · right
      apply getLastD_ne_zero_of_val_ge l.dropLast hsub
      · intro h
        rw [h] at hlendrop
        simp at hlendrop
        omega
      · rw [hveq, hlendrop]
        have : l.length - 1 - 1 = l.length - 2 := by omega
        rw [this]
        exact h2
  · rw [if_neg hc]
    push_neg at hc
    refine ⟨?_, rfl, hl⟩
    by_cases h1 : l.length = 1
    · exact Or.inl h1
    · by_cases hlast : l.getLastD 0 = 0
      · have := hc hlast
        omega
      · exact Or.inr hlast

theorem bn_do_add_spec (a b c : BN) (hna : Normalized a) (hnb : Normalized b) :
    limbsVal (bn_do_add a b c).number = limbsVal a.number + limbsVal b.number ∧
    minNorm (bn_do_add a b c).number ∧ Limbs32 (bn_do_add a b c).number ∧
    (bn_do_add a b c).sign = c.sign := by
  obtain ⟨hla, hma⟩ := hna
  obtain ⟨hlb, hmb⟩ := hnb
  have hdeq := bn_do_add_size_eq a b
  have hd1 := bn_do_add_size_pos a b
  have hlena := length_le_add_size_left a b hma
  have hlenb := length_le_add_size_right a b hmb
  have hvA := limbsVal_lt_two_pow_listMsb a.number hla
  have hvB := limbsVal_lt_two_pow_listMsb b.number hlb
  have hpA : 2 ^ listMsb a.number ≤ 2 ^ max (listMsb a.number) (listMsb b.number) :=
    Nat.pow_le_pow_right (by norm_num) (le_max_left _ _)
  have hpB : 2 ^ listMsb b.number ≤ 2 ^ max (listMsb a.number) (listMsb b.number) :=
    Nat.pow_le_pow_right (by norm_num) (le_max_right _ _)
  have hmd : max (listMsb a.number) (listMsb b.number) + 1 ≤ 32 * bn_do_add_size a b := by
    rw [hdeq]; omega
  have hdm : 32 * (bn_do_add_size a b - 1) ≤ max (listMsb a.number) (listMsb b.number) := by
    rw [hdeq]; omega
  have hsucc : 2 ^ (max (listMsb a.number) (listMsb b.number) + 1)
      ≤ 2 ^ (32 * bn_do_add_size a b) := Nat.pow_le_pow_right (by norm_num) hmd
  have hpow1 : 2 ^ (max (listMsb a.number) (listMsb b.number) + 1)
      = 2 * 2 ^ max (listMsb a.number) (listMsb b.number) := by
    rw [pow_succ]; ring
  have hS : limbsVal a.number + limbsVal b.number < 2 ^ (32 * bn_do_add_size a b) := by
    omega
  have hval : limbsVal (addLoop (bn_do_add_size a b) a.number b.number 0)
      = limbsVal a.number + limbsVal b.number := by
    have h := addLoop_val (bn_do_add_size a b) a.number b.number 0 hlena hlenb (by omega)
    simpa using h
  have hc0len : (addLoop (bn_do_add_size a b) a.number b.number 0).length
      = bn_do_add_size a b := addLoop_length _ _ _ _
  have hc0b : Limbs32 (addLoop (bn_do_add_size a b) a.number b.number 0) :=
    addLoop_limbs32 _ _ _ _
  have hc0ne : addLoop (bn_do_add_size a b) a.number b.number 0 ≠ [] := by
    intro h
    rw [h] at hc0len
    simp at hc0len
    omega
  have hbig : (addLoop (bn_do_add_size a b) a.number b.number 0).getLastD 0 = 0 →
      1 < (addLoop (bn_do_add_size a b) a.number b.number 0).length →
      (addLoop (bn_do_add_size a b) a.number b.number 0).length = 2 ∨
      2 ^ (32 * ((addLoop (bn_do_add_size a b) a.number b.number 0).length - 2))
        ≤ limbsVal (addLoop (bn_do_add_size a b) a.number b.number 0) := by
    intro _ hlen2
    rw [hc0len] at hlen2 ⊢
    by_cases hd2 : bn_do_add_size a b = 2
    · exact Or.inl hd2
    · right
      have hSpos : 0 < limbsVal a.number + limbsVal b.number := by
        by_contra hz
        push_neg at hz
        have hza : limbsVal a.number = 0 := by omega
        have hzb : limbsVal b.number = 0 := by omega
        have ha0 : a.number = [0] := minNorm_val_zero _ hma hza
        have hb0 : b.number = [0] := minNorm_val_zero _ hmb hzb
        have hmsba : listMsb a.number = 0 := by rw [ha0]; exact listMsb_singleton_zero
        have hmsbb : listMsb b.number = 0 := by rw [hb0]; exact listMsb_singleton_zero
        rw [hdeq, hmsba, hmsbb] at hlen2
        omega
      have hm1 : 1 ≤ max (listMsb a.number) (listMsb b.number) := by
        by_cases hab : 0 < limbsVal a.number
        · have := listMsb_pos a.number hla hab
          omega
        · have hbpos : 0 < limbsVal b.number := by omega
          have := listMsb_pos b.number hlb hbpos
          omega
      have hlow : 2 ^ (max (listMsb a.number) (listMsb b.number) - 1)
          ≤ limbsVal a.number + limbsVal b.number := by
        rcases le_total (listMsb a.number) (listMsb b.number) with hab | hab
        · rw [max_eq_right hab]
          have := two_pow_le_limbsVal b.number hlb hmb (by omega)
          omega
        · rw [max_eq_left hab]
          have := two_pow_le_limbsVal a.number hla hma (by omega)
          omega
      have hexp : 32 * (bn_do_add_size a b - 2)
          ≤ max (listMsb a.number) (listMsb b.number) - 1 := by omega
      have hmono := Nat.pow_le_pow_right (show 1 ≤ 2 by norm_num) hexp
      rw [hval]
      omega
  obtain ⟨hm, hv, hb32⟩ := addTrim_spec _ hc0b hc0ne hbig
  exact ⟨hv.trans hval, hm, hb32, rfl⟩

theorem bn_do_add_ne_nil (a b c : BN) : (bn_do_add a b c).number ≠ [] := by
  have hd1 := bn_do_add_size_pos a b
  have hc0len : (addLoop (bn_do_add_size a b) a.number b.number 0).length
      = bn_do_add_size a b := addLoop_length _ _ _ _
  show (if (addLoop (bn_do_add_size a b) a.number b.number 0).getLastD 0 = 0 ∧
      1 < (addLoop (bn_do_add_size a b) a.number b.number 0).length
    then bn_resize_limbs (addLoop (bn_do_add_size a b) a.number b.number 0)
      ((addLoop (bn_do_add_size a b) a.number b.number 0).length - 1)
    else addLoop (bn_do_add_size a b) a.number b.number 0) ≠ []
  split <;> rename_i hcond
  · intro h
    have := bn_resize_limbs_length (addLoop (bn_do_add_size a b) a.number b.number 0)
      ((addLoop (bn_do_add_size a b) a.number b.number 0).length - 1)
    rw [h] at this
    simp at this
    omega
  · intro h
    rw [h] at hc0len
    simp at hc0len
    omega

/-! ### Aliasing -/

theorem bn_do_add_aliasA_eq (a b : BN) (hma : minNorm a.number) :
    bn_do_add_aliasA a b = bn_do_add a b a := by
  have hlen := length_le_add_size_left a b hma
  have hloop : addLoop (bn_do_add_size a b)
      (bn_resize_limbs a.number (bn_do_add_size a b)) b.number 0
      = addLoop (bn_do_add_size a b) a.number b.number 0 := by
    rw [bn_resize_limbs_grow a.number (bn_do_add_size a b) hlen]
    exact addLoop_drop_zeros_left _ _ _ _ _
  simp only [bn_do_add_aliasA, bn_do_add, hloop]

theorem bn_do_add_aliasB_eq (a b : BN) (hmb : minNorm b.number) :
    bn_do_add_aliasB a b = bn_do_add a b b := by
  have hlen := length_le_add_size_right a b hmb
  have hloop : addLoop (bn_do_add_size a b) a.number
      (bn_resize_limbs b.number (bn_do_add_size a b)) 0
      = addLoop (bn_do_add_size a b) a.number b.number 0 := by
    rw [bn_resize_limbs_grow b.number (bn_do_add_size a b) hlen]
    exact addLoop_drop_zeros_right _ _ _ _ _
  simp only [bn_do_add_aliasB, bn_do_add, hloop]

/-! ### The signed orchestrator -/

theorem resize_one_set_zero (l : List Nat) : (bn_resize_limbs l 1).set 0 0 = [0] := by
  have h1 : (bn_resize_limbs l 1).length = 1 := bn_resize_limbs_length l 1
  cases hres : bn_resize_limbs l 1 with
  | nil => rw [hres] at h1; simp at h1
  | cons x xs =>
    rw [hres] at h1
    simp only [List.length_cons] at h1
    have : xs = [] := List.length_eq_zero.mp (by omega)
    subst this
    rfl

theorem bn_cmp_eq_numbers (a b : BN) (h : a.number = b.number) : bn_cmp a b = 0 := by
  have hsize : a.size = b.size := by unfold BN.size; rw [h]
  unfold bn_cmp
  rw [if_neg (by omega), h]
  exact cmpLoop_self _

theorem size_pos_of_minNorm (b : BN) (h : minNorm b.number) : 1 ≤ b.size :=
  List.length_pos.mpr (minNorm_ne_nil _ h)

theorem bn_add_c_norm (a b c : BN) (hna : Normalized a) (hnb : Normalized b) :
    minNorm (bn_add a b c).2.2.number := by
  have hsa := size_pos_of_minNorm a hna.2
  have hsb := size_pos_of_minNorm b hnb.2
  unfold bn_add
  by_cases hsign : a.sign = b.sign
  · rw [if_pos hsign]
    exact (bn_do_add_spec a b c hna hnb).2.1
  · rw [if_neg hsign]
    by_cases hs : a.sign
    · simp only [hs, if_true, bn_swap]
      split
      · exact (bn_do_sub_spec b a c hnb.1 hna.1 (by omega)).2.1
      · split
        · exact (bn_do_sub_spec a b c hna.1 hnb.1 (by omega)).2.1
        · show minNorm ((bn_resize_limbs c.number 1).set 0 0)
          rw [resize_one_set_zero]
          exact Or.inl rfl
    · simp only [hs, Bool.false_eq_true, if_false]
      split
      · exact (bn_do_sub_spec a b c hna.1 hnb.1 (by omega)).2.1
      · split
        · exact (bn_do_sub_spec b a c hnb.1 hna.1 (by omega)).2.1
        · show minNorm ((bn_resize_limbs c.number 1).set 0 0)
          rw [resize_one_set_zero]
          exact Or.inl rfl

theorem bn_add_c_size_pos (a b c : BN) (ha : 1 ≤ a.size) (hb : 1 ≤ b.size) :
    1 ≤ (bn_add a b c).2.2.size := by
  unfold bn_add
  by_cases hsign : a.sign = b.sign
  · rw [if_pos hsign]
    show 1 ≤ (bn_do_add a b c).number.length
    have := bn_do_add_ne_nil a b c
    exact List.length_pos.mpr this
  · rw [if_neg hsign]
    by_cases hs : a.sign
    · simp only [hs, if_true, bn_swap]
      split
      · exact List.length_pos.mpr (bn_do_sub_ne_nil b a c (by omega))
      · split
        · exact List.length_pos.mpr (bn_do_sub_ne_nil a b c (by omega))
        · show 1 ≤ ((bn_resize_limbs c.number 1).set 0 0).length
          rw [resize_one_set_zero]
          rfl
    · simp only [hs, Bool.false_eq_true, if_false]
      split
      · exact List.length_pos.mpr (bn_do_sub_ne_nil a b c (by omega))
      · split
        · exact List.length_pos.mpr (bn_do_sub_ne_nil b a c (by omega))
        · show 1 ≤ ((bn_resize_limbs c.number 1).set 0 0).length
          rw [resize_one_set_zero]
          rfl

theorem bn_add_neg_self (a c : BN) :
    (bn_add a (BN.mk a.number (!a.sign)) c).2.2 = BN.mk [0] false := by
  have hsign : ¬(a.sign = (BN.mk a.number (!a.sign)).sign) := by
    cases h : a.sign <;> simp [h]
  unfold bn_add
  rw [if_neg hsign]
  by_cases hs : a.sign = true
  · simp only [hs, if_true, bn_swap]
    have hcmp : bn_cmp (BN.mk a.number (!true)) a = 0 := bn_cmp_eq_numbers _ _ rfl
    rw [hcmp]
    norm_num
    rw [resize_one_set_zero]
  · simp only [Bool.not_eq_true] at hs
    simp only [hs, Bool.false_eq_true, if_false]
    have hcmp : bn_cmp a (BN.mk a.number (!false)) = 0 := bn_cmp_eq_numbers _ _ rfl
    rw [hcmp]
    norm_num
    rw [resize_one_set_zero]

/-! ### The claims -/

/-- Claim C1: the spec says `compareMagnitude` reports the operand with
fewer limbs as LESS, and on equal sizes the first mismatching limb from
the top decides with the smaller limb making its operand LESS, EQUAL
only when all limbs agree.  The code is inverted: `bn_cmp` returns 1
(which `bn_add` documents and consumes as `|a| > |b|`, i.e. GREATER)
exactly when `a` has FEWER limbs, and on equal sizes when `a`'s
mismatching limb is SMALLER; only the EQUAL case agrees with the spec.
These evaluations exhibit the inversion. -/
theorem claim_C1_cmp_inversion_eval :
    bn_cmp (BN.mk [3] false) (BN.mk [7, 1] false) = 1 ∧
    bn_cmp (BN.mk [7, 1] false) (BN.mk [3] false) = -1 ∧
    bn_cmp (BN.mk [3] false) (BN.mk [5] false) = 1 ∧
    bn_cmp (BN.mk [5] false) (BN.mk [3] false) = -1 ∧
    bn_cmp (BN.mk [5] false) (BN.mk [5] false) = 0 := by
  refine ⟨rfl, rfl, rfl, rfl, rfl⟩

/-- Claim C2: the spec scenario says `add(-5, 3)` yields `sign=true,
limbs=[2]` (the value -2).  Because of the inverted comparator the code
takes the `|a| > |b|` branch with `|a| = 3 < 5 = |b|`, running the
subtractor outside its precondition: the destination actually receives
the wrapped magnitude `[4294967294]` with non-negative sign. -/
theorem claim_C2_scenario_eval :
    (bn_add (BN.mk [5] true) (BN.mk [3] false) (BN.mk [0] false)).2.2
      = BN.mk [4294967294] false ∧
    (bn_add (BN.mk [5] true) (BN.mk [3] false) (BN.mk [0] false)).2.2
      ≠ BN.mk [2] true := by
  refine ⟨rfl, by decide⟩

/-- Claim C3: the spec says `add(a, zero) == a` for every normalized
`a` of either sign.  For non-negative `a` this holds, but for negative
`a` the inverted comparator again sends the orchestrator into the
wrong branch: `add(-5, 0)` leaves `[4294967291]` with non-negative
sign instead of `-5`. -/
theorem claim_C3_zero_identity_fails :
    (bn_add (BN.mk [5] true) (BN.mk [0] false) (BN.mk [0] false)).2.2
      = BN.mk [4294967291] false ∧
    (bn_add (BN.mk [5] true) (BN.mk [0] false) (BN.mk [0] false)).2.2
      ≠ BN.mk [5] true := by
  refine ⟨rfl, by decide⟩

/-- Claim C4: for every normalized `a`, `bn_add` of `a` and its
negation (same magnitude, opposite sign) takes the equal-magnitude
branch and leaves the canonical zero in the destination: size 1,
limb 0, non-negative sign. -/
theorem claim_C4_add_neg_self (a c : BN) (_hna : Normalized a) :
    (bn_add a (BN.mk a.number (!a.sign)) c).2.2 = BN.mk [0] false :=
  bn_add_neg_self a c

/-- Claim C4 witness at `a = -5`. -/
theorem claim_C4_witness :
    Normalized (BN.mk [5] true) ∧
    (bn_add (BN.mk [5] true) (BN.mk [5] false) (BN.mk [7] true)).2.2
      = BN.mk [0] false :=
  ⟨by decide, claim_C4_add_neg_self (BN.mk [5] true) (BN.mk [7] true) (by decide)⟩

/-- Claim C5: for all normalized operands, the destination left by
`bn_add` satisfies the normalization invariant on every path
(`bn_do_add`, either `bn_do_sub` order, or the equal-magnitude
branch): its size is 1 or its most significant limb is nonzero. -/
theorem claim_C5_normalization (a b c : BN) (hna : Normalized a) (hnb : Normalized b) :
    (bn_add a b c).2.2.size = 1 ∨ (bn_add a b c).2.2.number.getLastD 0 ≠ 0 :=
  bn_add_c_norm a b c hna hnb

/-- Claim C5 witness at `a = 5`, `b = -5`, dirty two-limb destination. -/
theorem claim_C5_witness :
    (bn_add (BN.mk [5] false) (BN.mk [5] true) (BN.mk [9, 9] false)).2.2.size = 1 ∨
    (bn_add (BN.mk [5] false) (BN.mk [5] true) (BN.mk [9, 9] false)).2.2.number.getLastD 0
      ≠ 0 :=
  claim_C5_normalization _ _ _ (by decide) (by decide)

/-- Claim C6: `bn_do_add` resizes the destination to
`ceil((max(msb a, msb b) + 1) / 32)` limbs (at least one) — the length
of the limb array the carry loop then fills — and leaves exactly the
magnitude `|a| + |b|` for all normalized operands; the aliased calls
`bn_do_add(a, b, a)` and `bn_do_add(a, b, b)` produce the same result;
and `0xFFFFFFFF + 0xFFFFFFFF` gives limbs `[0xFFFFFFFE, 0x1]`, size 2. -/
theorem claim_C6_do_add_correct :
    (∀ a b c : BN, Normalized a → Normalized b →
      limbsVal (bn_do_add a b c).number = limbsVal a.number + limbsVal b.number ∧
      bn_do_add_size a b = (max (bn_msb a) (bn_msb b) + 1 + 31) / 32 ∧
      1 ≤ bn_do_add_size a b ∧
      (addLoop (bn_do_add_size a b) a.number b.number 0).length = bn_do_add_size a b ∧
      bn_do_add_aliasA a b = bn_do_add a b a ∧
      bn_do_add_aliasB a b = bn_do_add a b b) ∧
    bn_do_add (BN.mk [4294967295] false) (BN.mk [4294967295] false) (BN.mk [0] false)
      = BN.mk [4294967294, 1] false := by
  constructor
  · intro a b c hna hnb
    refine ⟨(bn_do_add_spec a b c hna hnb).1, ?_, bn_do_add_size_pos a b,
      addLoop_length _ _ _ _, bn_do_add_aliasA_eq a b hna.2, bn_do_add_aliasB_eq a b hnb.2⟩
    rw [bn_do_add_size_eq, bn_msb_eq, bn_msb_eq]
  · rfl

/-- Claim C6 witness at `a = 5`, `b = 7`. -/
theorem claim_C6_witness :
    limbsVal (bn_do_add (BN.mk [5] false) (BN.mk [7] false) (BN.mk [0] true)).number
      = limbsVal [5] + limbsVal [7] ∧
    bn_do_add_aliasA (BN.mk [5] false) (BN.mk [7] false)
      = bn_do_add (BN.mk [5] false) (BN.mk [7] false) (BN.mk [5] false) := by
  have h := claim_C6_do_add_correct.1 (BN.mk [5] false) (BN.mk [7] false)
    (BN.mk [0] true) (by decide) (by decide)
  exact ⟨h.1, h.2.2.2.2.1⟩

/-- Claim C7: under the precondition `|a| >= |b|` on normalized
operands, `bn_do_sub` first resizes the destination to
`max(a.size, b.size)` limbs (the length of the borrow-loop output),
then leaves the magnitude `|a| - |b|` with all leading zero limbs
trimmed but never below size 1; and `{0,1} - {1,0}` gives
`{0xFFFFFFFF}` with size 1. -/
theorem claim_C7_do_sub_correct :
    (∀ a b c : BN, Normalized a → Normalized b →
      limbsVal b.number ≤ limbsVal a.number →
      (subLoop (max a.size b.size) a.number b.number 0).length = max a.size b.size ∧
      limbsVal (bn_do_sub a b c).number = limbsVal a.number - limbsVal b.number ∧
      ((bn_do_sub a b c).number.length = 1 ∨
        (bn_do_sub a b c).number.getLastD 0 ≠ 0)) ∧
    bn_do_sub (BN.mk [0, 1] false) (BN.mk [1, 0] false) (BN.mk [0] false)
      = BN.mk [4294967295] false := by
  constructor
  · intro a b c hna hnb hle
    have hpos : 1 ≤ max a.size b.size :=
      le_trans (size_pos_of_minNorm a hna.2) (le_max_left _ _)
    obtain ⟨h32, hmin, hsgn, hval⟩ := bn_do_sub_spec a b c hna.1 hnb.1 hpos
    exact ⟨subLoop_length _ _ _ _, hval hle, hmin⟩
  · rfl

/-- Claim C7 witness at `a = 7`, `b = 3`. -/
theorem claim_C7_witness :
    limbsVal (bn_do_sub (BN.mk [7] false) (BN.mk [3] false) (BN.mk [0] false)).number
      = limbsVal [7] - limbsVal [3] := by
  have h := claim_C7_do_sub_correct.1 (BN.mk [7] false) (BN.mk [3] false)
    (BN.mk [0] false) (by decide) (by decide) (by decide)
  exact h.2.1

/-- Claim C8: the header macro `bn_is_zero` holds exactly when
`size == 0`; and since `bn_add` always leaves at least one limb in the
destination (the mathematical zero is normalized to size 1 with limb
0), `bn_is_zero` is false on every result of `bn_add`. -/
theorem claim_C8_is_zero :
    (∀ b : BN, bn_is_zero b = true ↔ b.size = 0) ∧
    (∀ a b c : BN, 1 ≤ a.size → 1 ≤ b.size →
      bn_is_zero (bn_add a b c).2.2 = false) := by
  constructor
  · intro b
    simp [bn_is_zero]
  · intro a b c ha hb
    have h := bn_add_c_size_pos a b c ha hb
    simp only [bn_is_zero, beq_eq_false_iff_ne, ne_eq]
    omega

/-- Claim C8 witness: `5 + (-5)` normalizes to `[0]` with size 1, on
which `bn_is_zero` is still false. -/
theorem claim_C8_witness :
    bn_is_zero (bn_add (BN.mk [5] false) (BN.mk [5] true) (BN.mk [0] false)).2.2
      = false :=
  claim_C8_is_zero.2 _ _ _ (by decide) (by decide)

/-- Claim C9: `bn_free` returns -1 exactly when the handle is NULL,
and on a live handle it frees the limb buffer and the struct (no live
bn remains) and returns 0. -/
theorem claim_C9_free :
    (∀ h : Option BN, (bn_free h).2 = -1 ↔ h = none) ∧
    (∀ b : BN, bn_free (some b) = (none, 0)) := by
  constructor
  · intro h
    cases h with
    | none => simp [bn_free]
    | some b => simp [bn_free]
  · intro b
    rfl

/-- Claim C10 counterexample: on a live bn of size 0, `bn_resize`
with new size 0 hits the equal-size check FIRST, so it does NOT free:
it returns 0 and the bn stays live, contradicting the claim that size
0 always frees and leaves no live BigInt. -/
theorem claim_C10_counterexample :
    bn_resize (some (BN.mk [] false)) 0 = (some (BN.mk [] false), 0) ∧
    (bn_resize (some (BN.mk [] false)) 0).1 ≠ none := by
  refine ⟨rfl, by decide⟩

/-- Claim C10 (amended): `bn_resize` with new size 0 on a live bn of
NONZERO size delegates to `bn_free` (returning its result 0, no live
bn remaining); a new size equal to the current size — including 0 on a
size-0 bn — is a no-op returning 0; and a grow appends exactly
`newSize - oldSize` zero limbs and returns 0. -/
theorem claim_C10_resize (b : BN) (n : Nat) :
    (n = b.size → bn_resize (some b) n = (some b, 0)) ∧
    (n = 0 → b.size ≠ 0 → bn_resize (some b) 0 = bn_free (some b) ∧
      bn_resize (some b) 0 = (none, 0)) ∧
    (b.size < n → bn_resize (some b) n
      = (some (BN.mk (b.number ++ List.replicate (n - b.size) 0) b.sign), 0)) := by
  refine ⟨?_, ?_, ?_⟩
  · intro h
    simp only [bn_resize]
    rw [if_pos h]
  · intro h hb
    subst h
    simp only [bn_resize]
    rw [if_neg (by omega)]
    exact ⟨by simp, by simp [bn_free]⟩
  · intro h
    simp only [bn_resize]
    rw [if_neg (by omega), if_neg (by omega),
      bn_resize_limbs_grow b.number n (le_of_lt h)]
    rfl

/-- Claim C10 witness: no-op at equal size, free at size 0 on a
nonzero-size bn, and zero-filling grow. -/
theorem claim_C10_witness :
    bn_resize (some (BN.mk [5] false)) 1 = (some (BN.mk [5] false), 0) ∧
    bn_resize (some (BN.mk [5] false)) 0 = (none, 0) ∧
    bn_resize (some (BN.mk [5] false)) 3 = (some (BN.mk [5, 0, 0] false), 0) := by
  refine ⟨(claim_C10_resize (BN.mk [5] false) 1).1 (by decide),
    ((claim_C10_resize (BN.mk [5] false) 0).2.1 rfl (by decide)).2, ?_⟩
  exact (claim_C10_resize (BN.mk [5] false) 3).2.2 (by decide)
